import Mathlib

/-!
Verification of the node-extras utility library (safe JSON coercion and
request form-data validation) against its specification.

The JavaScript value universe relevant to this code is modelled by the
mutually inductive type JVal below.  JavaScript numbers are modelled as
arbitrary-precision integers (non-integer numerals and IEEE-754 artefacts
are outside the model); strings are Unicode scalar sequences, so lone
UTF-16 surrogates are outside the model as well.  JSON.parse and
JSON.stringify are embedded as executable functions on this universe,
faithful to the JSON grammar (no leading zeros, mandatory escaping of
control characters, whitespace skipping, duplicate object keys resolved
last-wins at first-occurrence position).
-/

set_option maxHeartbeats 1000000

mutual

inductive JVal where
  | vundefined : JVal
  | vnull : JVal
  | vbool (b : Bool) : JVal
  | vnum (n : Int) : JVal
  | vstr (s : String) : JVal
  | varr (items : JItems) : JVal
  | vobj (members : JMembers) : JVal
deriving DecidableEq

inductive JItems where
  | nil : JItems
  | cons (head : JVal) (tail : JItems) : JItems
deriving DecidableEq

inductive JMembers where
  | nil : JMembers
  | cons (key : String) (val : JVal) (tail : JMembers) : JMembers
deriving DecidableEq

end

/-- JSON whitespace characters (space, tab, line feed, carriage return). -/
def isWsC (c : Char) : Bool :=
  c.toNat = 32 ∨ c.toNat = 9 ∨ c.toNat = 10 ∨ c.toNat = 13

/-- Decimal digit characters. -/
def isDigitC (c : Char) : Bool :=
  48 ≤ c.toNat ∧ c.toNat ≤ 57

/-- Drop leading JSON whitespace. -/
def skipWs : List Char → List Char
  | [] => []
  | c :: cs => if isWsC c then skipWs cs else c :: cs

/-- Decimal digit character for a digit value. -/
def digitCh (d : Nat) : Char := Char.ofNat (48 + d)

/-- Lowercase hexadecimal digit character for a digit value. -/
def hexDigitCh (d : Nat) : Char :=
  if d < 10 then Char.ofNat (48 + d) else Char.ofNat (87 + d)

/-- Decimal digit characters of a natural number, most significant first.
The first argument is structural fuel; any fuel above the number suffices. -/
def natCharsAux : Nat → Nat → List Char
  | 0, _ => []
  | fuel + 1, n => if n < 10 then [digitCh n] else natCharsAux fuel (n / 10) ++ [digitCh (n % 10)]

/-- Decimal digit characters of a natural number. -/
def natChars (n : Nat) : List Char := natCharsAux (n + 1) n

/-- Decimal representation of an integer, as produced by JavaScript
number-to-string conversion on exact integers. -/
def intChars : Int → List Char
  | .ofNat m => natChars m
  | .negSucc m => '-' :: natChars (m + 1)

/-- JSON string escaping of one character, as produced by JSON.stringify. -/
def escChar (c : Char) : List Char :=
  if c = '"' then ['\\', '"']
  else if c = '\\' then ['\\', '\\']
  else if c = '\x08' then ['\\', 'b']
  else if c = '\t' then ['\\', 't']
  else if c = '\n' then ['\\', 'n']
  else if c = '\x0c' then ['\\', 'f']
  else if c = '\x0d' then ['\\', 'r']
  else if c.toNat < 32 then ['\\', 'u', '0', '0', hexDigitCh (c.toNat / 16), hexDigitCh (c.toNat % 16)]
  else [c]

/-- JSON string escaping of a character sequence. -/
def escList : List Char → List Char
  | [] => []
  | c :: cs => escChar c ++ escList cs

/-- Whether an object member list contains a member that JSON.stringify
emits (that is, one whose value is not undefined). -/
def hasVisible : JMembers → Bool
  | .nil => false
  | .cons _ .vundefined fs => hasVisible fs
  | .cons _ _ _ => true

mutual

/-- Characters of the JSON serialization of a value, as produced by
JSON.stringify with no indentation.  At positions where JSON.stringify
would emit nothing for undefined (the top level), callers are expected to
guard; inside arrays undefined serializes as null, matching JavaScript. -/
def printV : JVal → List Char
  | .vundefined => ['n', 'u', 'l', 'l']
  | .vnull => ['n', 'u', 'l', 'l']
  | .vbool true => ['t', 'r', 'u', 'e']
  | .vbool false => ['f', 'a', 'l', 's', 'e']
  | .vnum n => intChars n
  | .vstr s => '"' :: escList s.data ++ ['"']
  | .varr xs => '[' :: printItems xs ++ [']']
  | .vobj fs => '\x7b' :: printMembers fs ++ ['\x7d']

/-- Comma-separated serializations of array items. -/
def printItems : JItems → List Char
  | .nil => []
  | .cons x .nil => printV x
  | .cons x (.cons y ys) => printV x ++ ',' :: printItems (.cons y ys)

/-- Comma-separated serializations of object members; members whose value
is undefined are skipped, matching JSON.stringify. -/
def printMembers : JMembers → List Char
  | .nil => []
  | .cons k v fs =>
    if v = .vundefined then printMembers fs
    else ('"' :: escList k.data ++ ['"', ':'] ++ printV v) ++
      (if hasVisible fs then ',' :: printMembers fs else [])

end

namespace JSON

/-- JSON.stringify: undefined serializes to no string at all (JavaScript
returns the value undefined); every other modelled value serializes to its
JSON text. -/
def stringify : JVal → Option String
  | .vundefined => none
  | v => some (String.mk (printV v))

end JSON

/-- Hexadecimal digit value of a character, accepting both cases. -/
def hexV (c : Char) : Option Nat :=
  if 48 ≤ c.toNat ∧ c.toNat ≤ 57 then some (c.toNat - 48)
  else if 97 ≤ c.toNat ∧ c.toNat ≤ 102 then some (c.toNat - 87)
  else if 65 ≤ c.toNat ∧ c.toNat ≤ 70 then some (c.toNat - 55)
  else none

/-- Single-character JSON string escapes. -/
def unescCh (e : Char) : Option Char :=
  if e = '"' then some '"'
  else if e = '\\' then some '\\'
  else if e = '/' then some '/'
  else if e = 'b' then some '\x08'
  else if e = 'f' then some '\x0c'
  else if e = 'n' then some '\n'
  else if e = 'r' then some '\x0d'
  else if e = 't' then some '\t'
  else none

/-- Parse the body of a JSON string literal (after the opening quote),
returning the decoded characters and the input following the closing
quote.  Raw control characters are rejected; escapes decode per the JSON
grammar; unicode escapes denoting UTF-16 surrogate code units are outside
the model and rejected. -/
def parseStrBody : List Char → Option (List Char × List Char)
  | [] => none
  | c :: rest =>
    if c = '"' then some ([], rest)
    else if c = '\\' then
      match rest with
      | [] => none
      | e :: r2 =>
        if e = 'u' then
          match r2 with
          | h1 :: h2 :: h3 :: h4 :: r3 =>
            match hexV h1, hexV h2, hexV h3, hexV h4 with
            | some a, some b, some c2, some d2 =>
              if ((a * 16 + b) * 16 + c2) * 16 + d2 < 55296 ∨
                  57344 ≤ ((a * 16 + b) * 16 + c2) * 16 + d2 then
                match parseStrBody r3 with
                | some (l, r) => some (Char.ofNat (((a * 16 + b) * 16 + c2) * 16 + d2) :: l, r)
                | none => none
              else none
            | _, _, _, _ => none
          | _ => none
        else
          match unescCh e with
          | some u =>
            match parseStrBody r2 with
            | some (l, r) => some (u :: l, r)
            | none => none
          | none => none
    else if c.toNat < 32 then none
    else
      match parseStrBody rest with
      | some (l, r) => some (c :: l, r)
      | none => none

/-- Accumulate a maximal run of decimal digits into a value. -/
def digitsVal : Nat → List Char → Nat × List Char
  | acc, [] => (acc, [])
  | acc, c :: cs => if isDigitC c then digitsVal (acc * 10 + (c.toNat - 48)) cs else (acc, c :: cs)

/-- Parse the integer part of a JSON number (no sign).  A leading zero is
only the numeral 0 itself, per the JSON grammar. -/
def parseNum : List Char → Option (Nat × List Char)
  | [] => none
  | c :: rest =>
    if c = '0' then some (0, rest)
    else if isDigitC c then some (digitsVal 0 (c :: rest))
    else none

/-- Insert a member into an object under construction: a duplicate key
overwrites the value in place (keeping first-occurrence position), a fresh
key appends, matching JavaScript object semantics during JSON.parse. -/
def objAdd : JMembers → String → JVal → JMembers
  | .nil, k, v => .cons k v .nil
  | .cons k1 v1 t, k, v => if k1 = k then .cons k1 v t else .cons k1 v1 (objAdd t k v)

/-- Whether a character list does not begin with a decimal digit (the
continuation condition after parsing a printed number). -/
def noDigitB : List Char → Bool
  | [] => true
  | c :: _ => !isDigitC c

/-- The three mutually recursive parsing functions at one fuel level:
values, array item lists (after the opening bracket, nonempty), and object
member lists (after the opening brace, nonempty, with an accumulator). -/
structure JParsers where
  val : List Char → Option (JVal × List Char)
  items : List Char → Option (JItems × List Char)
  members : JMembers → List Char → Option (JMembers × List Char)

/-- One step of the recursive JSON parser: each recursive position calls
the previous fuel level. -/
def parseStep (P : JParsers) : JParsers where
  val := fun cs =>
    match skipWs cs with
    | [] => none
    | c :: rest =>
      if c = 'n' then
        match rest with
        | 'u' :: 'l' :: 'l' :: r => some (.vnull, r)
        | _ => none
      else if c = 't' then
        match rest with
        | 'r' :: 'u' :: 'e' :: r => some (.vbool true, r)
        | _ => none
      else if c = 'f' then
        match rest with
        | 'a' :: 'l' :: 's' :: 'e' :: r => some (.vbool false, r)
        | _ => none
      else if c = '"' then
        match parseStrBody rest with
        | some (l, r) => some (.vstr (String.mk l), r)
        | none => none
      else if c = '-' then
        match parseNum rest with
        | some (n, r) => some (.vnum (-(n : Int)), r)
        | none => none
      else if c = '[' then
        match skipWs rest with
        | [] => none
        | d :: r2 =>
          if d = ']' then some (.varr .nil, r2)
          else
            match P.items (d :: r2) with
            | some (xs, r3) => some (.varr xs, r3)
            | none => none
      else if c = '\x7b' then
        match skipWs rest with
        | [] => none
        | d :: r2 =>
          if d = '\x7d' then some (.vobj .nil, r2)
          else
            match P.members .nil (d :: r2) with
            | some (fs, r3) => some (.vobj fs, r3)
            | none => none
      else if isDigitC c then
        match parseNum (c :: rest) with
        | some (n, r) => some (.vnum (n : Int), r)
        | none => none
      else none
  items := fun cs =>
    match P.val cs with
    | none => none
    | some (v, r1) =>
      match skipWs r1 with
      | [] => none
      | d :: r2 =>
        if d = ',' then
          match P.items r2 with
          | some (vs, r3) => some (.cons v vs, r3)
          | none => none
        else if d = ']' then some (.cons v .nil, r2)
        else none
  members := fun acc cs =>
    match skipWs cs with
    | [] => none
    | c :: r1 =>
      if c = '"' then
        match parseStrBody r1 with
        | none => none
        | some (k, r2) =>
          match skipWs r2 with
          | [] => none
          | d :: r3 =>
            if d = ':' then
              match P.val r3 with
              | none => none
              | some (v, r4) =>
                match skipWs r4 with
                | [] => none
                | e :: r5 =>
                  if e = ',' then P.members (objAdd acc (String.mk k) v) r5
                  else if e = '\x7d' then some (objAdd acc (String.mk k) v, r5)
                  else none
            else none
      else none

/-- The parser family, by fuel. -/
def parsers : Nat → JParsers
  | 0 => { val := fun _ => none, items := fun _ => none, members := fun _ _ => none }
  | fuel + 1 => parseStep (parsers fuel)

/-- Parse one JSON value at the given fuel. -/
def parseV (fuel : Nat) : List Char → Option (JVal × List Char) := (parsers fuel).val

/-- Parse a nonempty bracket-terminated item list at the given fuel. -/
def parseItems (fuel : Nat) : List Char → Option (JItems × List Char) := (parsers fuel).items

/-- Parse a nonempty brace-terminated member list at the given fuel. -/
def parseMembers (fuel : Nat) : JMembers → List Char → Option (JMembers × List Char) :=
  (parsers fuel).members

namespace JSON

/-- JSON.parse: parse a complete JSON text (the fuel bound is ample for
every input, see the inversion development below). -/
def parse (s : String) : Option JVal :=
  match parseV (2 * s.length + 2) s.data with
  | some (j, rest) => if skipWs rest = [] then some j else none
  | none => none

end JSON

mutual

/-- Parse weight of a value: an upper bound (when given as fuel) on the
recursion depth the parser needs to read the value back. -/
def weight : JVal → Nat
  | .varr xs => 1 + itemsW xs
  | .vobj fs => 1 + membersW fs
  | _ => 1

/-- Parse weight of an array item list. -/
def itemsW : JItems → Nat
  | .nil => 0
  | .cons x xs => 1 + weight x + itemsW xs

/-- Parse weight of an object member list. -/
def membersW : JMembers → Nat
  | .nil => 0
  | .cons _ v fs => 1 + weight v + membersW fs

end

/-- Whether a member list has no member with the given key. -/
def keyFree : JMembers → String → Bool
  | .nil, _ => true
  | .cons k1 _ t, k => !(k1 = k : Bool) && keyFree t k

/-- Concatenation of member lists. -/
def JMembers.append : JMembers → JMembers → JMembers
  | .nil, ms => ms
  | .cons k v t, ms => .cons k v (JMembers.append t ms)

/-- Whether every key of the first member list is absent from the second. -/
def disjKeys : JMembers → JMembers → Bool
  | .nil, _ => true
  | .cons k _ t, acc => keyFree acc k && disjKeys t acc

mutual

/-- A value is JSON-pure when it contains no undefined anywhere and no
object has duplicate keys: exactly the values that JavaScript structures
representable as JSON texts denote, on which serialization is lossless. -/
def isPure : JVal → Bool
  | .vundefined => false
  | .vnull => true
  | .vbool _ => true
  | .vnum _ => true
  | .vstr _ => true
  | .varr xs => pureItems xs
  | .vobj fs => pureMembers fs

/-- All items JSON-pure. -/
def pureItems : JItems → Bool
  | .nil => true
  | .cons x xs => isPure x && pureItems xs

/-- All member values JSON-pure and keys pairwise distinct. -/
def pureMembers : JMembers → Bool
  | .nil => true
  | .cons k v fs => isPure v && keyFree fs k && pureMembers fs

end

mutual

/-- Characters of the JavaScript ToString coercion of a value (the string
JSON.parse receives when handed a non-string argument): primitives print
their literal form, arrays join their elements with commas (null and
undefined elements becoming empty), plain objects become the tag string. -/
def toStrChars : JVal → List Char
  | .vundefined => ['u', 'n', 'd', 'e', 'f', 'i', 'n', 'e', 'd']
  | .vnull => ['n', 'u', 'l', 'l']
  | .vbool true => ['t', 'r', 'u', 'e']
  | .vbool false => ['f', 'a', 'l', 's', 'e']
  | .vnum n => intChars n
  | .vstr s => s.data
  | .varr xs => joinChars xs
  | .vobj _ => ['[', 'o', 'b', 'j', 'e', 'c', 't', ' ', 'O', 'b', 'j', 'e', 'c', 't', ']']

/-- Array.prototype.join with comma separator, coercing elements. -/
def joinChars : JItems → List Char
  | .nil => []
  | .cons x .nil =>
    (match x with
     | .vundefined => []
     | .vnull => []
     | _ => toStrChars x)
  | .cons x (.cons y ys) =>
    (match x with
     | .vundefined => []
     | .vnull => []
     | _ => toStrChars x) ++ ',' :: joinChars (.cons y ys)

end

/-- JavaScript ToString coercion. -/
def jsToString (v : JVal) : String := String.mk (toStrChars v)

namespace SrcUtil

/-- safeJSON from src/src/util/safeJSON.ts:
result = JSON.parse(JSON.stringify(value)) inside try, catch returns the
input.  When JSON.stringify yields undefined, JSON.parse coerces it to the
text undefined, which fails to parse, so the catch branch returns the
input; the none branch below is that case. -/
def safeJSON (value : JVal) : JVal :=
  match JSON.stringify value with
  | none => value
  | some s =>
    match JSON.parse s with
    | some result => result
    | none => value

end SrcUtil

namespace SrcUnnamed

/-- safeJSON from src/unnamed/part_000:
result = JSON.parse(value) inside try, catch returns the input.
JSON.parse coerces a non-string argument to a string first. -/
def safeJSON (value : JVal) : JVal :=
  match JSON.parse (jsToString value) with
  | some result => result
  | none => value

end SrcUnnamed

/-- Whether a value is a string holding valid JSON text (in the model). -/
def validJSONText (v : JVal) : Bool :=
  match v with
  | .vstr s => (JSON.parse s).isSome
  | _ => false

/-- Form container read from a request body: ordered field entries (file
attachments are outside the claims and not modelled). -/
structure FormData where
  entries : List (String × String)
deriving DecidableEq

/-- FormData.get: the first entry with the given name, or null. -/
def fdGet (fd : FormData) (key : String) : JVal :=
  match fd.entries.find? (fun e => e.1 = key) with
  | some e => .vstr e.2
  | none => .vnull

/-- Outcome of a Zod safeParse collaborator: a discriminated success with
data or failure with error details, never an exception. -/
inductive ParseResult where
  | success (data : JVal) : ParseResult
  | failure (error : String) : ParseResult
deriving DecidableEq

/-- Result shape of validateForm: the full diagnostic object (all fields
of the safeParse outcome spread together with the formData key) or the
minimal-mode value (validated data, or undefined on failure). -/
inductive VFResult where
  | fullR (parsed : ParseResult) (formData : FormData) : VFResult
  | minR (value : JVal) : VFResult
deriving DecidableEq

/-- Incoming request: its single relevant capability is the asynchronous
form-body read, modelled as an Except over the body-read failure. -/
structure Request where
  formData : Except String FormData

/-- The value validateForm hands to the schema collaborator: the data
field of the form container (null when absent), normalized through
safeJSON. -/
def normalizedInput (fd : FormData) : JVal :=
  SrcUtil.safeJSON (fdGet fd "data")

namespace SrcUtil

/-- validateForm from src/src/util/validateForm.ts.  The fullReturn
parameter is optional with no default (undefined when omitted, hence
falsy), modelled as Option Bool with none interpreted false.  Awaiting
the body read propagates its failure; then the data field is normalized
with safeJSON, validated by the schema, and shaped by fullReturn:
spread-of-parsed plus formData, or parsed.success ? parsed.data :
undefined. -/
def validateForm (request : Request) (schema : JVal → ParseResult)
    (fullReturn : Option Bool) : Except String VFResult :=
  match request.formData with
  | .error e => .error e
  | .ok fd =>
    let parsed := schema (SrcUtil.safeJSON (fdGet fd "data"))
    if fullReturn.getD false then .ok (.fullR parsed fd)
    else
      .ok (match parsed with
           | .success d => .minR d
           | .failure _ => .minR .vundefined)

end SrcUtil

namespace SrcClass

/-- validateForm as embedded in src/src/type/Class.ts, identical except
that fullReturn defaults to true when omitted. -/
def validateForm (request : Request) (schema : JVal → ParseResult)
    (fullReturn : Option Bool) : Except String VFResult :=
  match request.formData with
  | .error e => .error e
  | .ok fd =>
    let parsed := schema (SrcUtil.safeJSON (fdGet fd "data"))
    if fullReturn.getD true then .ok (.fullR parsed fd)
    else
      .ok (match parsed with
           | .success d => .minR d
           | .failure _ => .minR .vundefined)

end SrcClass



section

variable (P : JVal → Prop) (Q : JItems → Prop) (R : JMembers → Prop)
  (c1 : P .vundefined) (c2 : P .vnull) (c3 : ∀ b, P (.vbool b)) (c4 : ∀ n, P (.vnum n))
  (c5 : ∀ s, P (.vstr s)) (c6 : ∀ xs, Q xs → P (.varr xs)) (c7 : ∀ fs, R fs → P (.vobj fs))
  (c8 : Q .nil) (c9 : ∀ x xs, P x → Q xs → Q (.cons x xs))
  (c10 : R .nil) (c11 : ∀ k v fs, P v → R fs → R (.cons k v fs))

mutual

/-- Simultaneous induction principle for the three JSON value sorts. -/
def jvalInd : ∀ j, P j
  | .vundefined => c1
  | .vnull => c2
  | .vbool b => c3 b
  | .vnum n => c4 n
  | .vstr s => c5 s
  | .varr xs => c6 xs (jitemsInd xs)
  | .vobj fs => c7 fs (jmembersInd fs)

/-- Item-list component of the simultaneous induction principle. -/
def jitemsInd : ∀ xs, Q xs
  | .nil => c8
  | .cons x xs => c9 x xs (jvalInd x) (jitemsInd xs)

/-- Member-list component of the simultaneous induction principle. -/
def jmembersInd : ∀ fs, R fs
  | .nil => c10
  | .cons k v fs => c11 k v fs (jvalInd v) (jmembersInd fs)

end

end

/-- Plain structural induction over member lists. -/
def membersInd (R : JMembers → Prop) (r0 : R .nil)
    (r1 : ∀ k v t, R t → R (.cons k v t)) : ∀ fs, R fs :=
  jmembersInd (fun _ => True) (fun _ => True) R trivial trivial (fun _ => trivial)
    (fun _ => trivial) (fun _ => trivial) (fun _ _ => trivial) (fun _ _ => trivial)
    trivial (fun _ _ _ _ => trivial) r0 (fun k v fs _ hr => r1 k v fs hr)

/-- Plain structural induction over item lists. -/
def itemsInd (Q : JItems → Prop) (q0 : Q .nil)
    (q1 : ∀ x xs, Q xs → Q (.cons x xs)) : ∀ xs, Q xs :=
  jitemsInd (fun _ => True) Q (fun _ => True) trivial trivial (fun _ => trivial)
    (fun _ => trivial) (fun _ => trivial) (fun _ _ => trivial) (fun _ _ => trivial)
    q0 (fun x xs _ hq => q1 x xs hq) trivial (fun _ _ _ _ _ => trivial)

theorem charEq_of_toNat {a b : Char} (h : a.toNat = b.toNat) : a = b :=
  Char.ext (UInt32.toNat.inj h)

theorem isDigitC_iff {c : Char} : isDigitC c = true ↔ 48 ≤ c.toNat ∧ c.toNat ≤ 57 := by
  simp [isDigitC]

theorem digitCh_toNat {d : Nat} (h : d < 10) : (digitCh d).toNat = 48 + d := by
  have h10 : ∀ e, e < 10 → (digitCh e).toNat = 48 + e := by decide
  exact h10 d h

theorem isDigitC_digitCh {d : Nat} (h : d < 10) : isDigitC (digitCh d) = true := by
  rw [isDigitC_iff, digitCh_toNat h]
  omega

theorem ws_false_of_digit {c : Char} (h : isDigitC c = true) : isWsC c = false := by
  have hb := isDigitC_iff.mp h
  simp [isWsC]
  omega

theorem digit_not_lit {c : Char} (h : isDigitC c = true) :
    c ≠ 'n' ∧ c ≠ 't' ∧ c ≠ 'f' ∧ c ≠ '"' ∧ c ≠ '-' ∧ c ≠ '[' ∧ c ≠ '\x7b' := by
  have hb := isDigitC_iff.mp h
  refine ⟨?_, ?_, ?_, ?_, ?_, ?_, ?_⟩ <;> (intro he; subst he; revert hb; decide)

theorem skipWs_cons {c : Char} (cs : List Char) (h : isWsC c = false) :
    skipWs (c :: cs) = c :: cs := by
  simp [skipWs, h]

theorem natCharsAux_head {fuel : Nat} : ∀ {n : Nat}, n < fuel →
    ∃ c cs, natCharsAux fuel n = c :: cs ∧ isDigitC c = true ∧ (1 ≤ n → c ≠ '0') := by
  induction fuel with
  | zero => intro n h; omega
  | succ fuel ih =>
    intro n h
    rw [natCharsAux]
    by_cases h10 : n < 10
    · refine ⟨digitCh n, [], by simp [h10], isDigitC_digitCh h10, ?_⟩
      intro h1 he
      have := digitCh_toNat h10
      rw [he] at this
      revert this
      simp
      omega
    · have hn : n / 10 < fuel := by
        have := Nat.div_lt_self (by omega : 0 < n) (by omega : 1 < 10)
        omega
      obtain ⟨c, cs, hc, hd, hz⟩ := ih hn
      refine ⟨c, cs ++ [digitCh (n % 10)], by simp [h10, hc], hd, ?_⟩
      intro _
      exact hz (by omega)

theorem digitsVal_natCharsAux {fuel : Nat} : ∀ {n : Nat} (acc : Nat) (rest : List Char),
    n < fuel →
    digitsVal acc (natCharsAux fuel n ++ rest) =
      digitsVal (acc * 10 ^ (natCharsAux fuel n).length + n) rest := by
  induction fuel with
  | zero => intro n acc rest h; omega
  | succ fuel ih =>
    intro n acc rest h
    rw [natCharsAux]
    by_cases h10 : n < 10
    · simp only [if_pos h10, List.singleton_append, List.length_singleton]
      rw [digitsVal, if_pos (isDigitC_digitCh h10), digitCh_toNat h10]
      norm_num
    · have hn : n / 10 < fuel := by
        have := Nat.div_lt_self (by omega : 0 < n) (by omega : 1 < 10)
        omega
      simp only [if_neg h10, List.append_assoc, List.singleton_append, List.length_append,
        List.length_singleton]
      rw [ih acc _ hn]
      rw [digitsVal, if_pos (isDigitC_digitCh (Nat.mod_lt n (by omega)))]
      rw [digitCh_toNat (Nat.mod_lt n (by omega))]
      have hdm := Nat.div_add_mod n 10
      have hpow : 10 ^ ((natCharsAux fuel (n / 10)).length + 1) =
          10 ^ (natCharsAux fuel (n / 10)).length * 10 := by
        rw [pow_succ]
      rw [hpow]
      congr 1
      have : acc * (10 ^ (natCharsAux fuel (n / 10)).length * 10) =
          acc * 10 ^ (natCharsAux fuel (n / 10)).length * 10 := by ring
      rw [this]
      omega

theorem digitsVal_stop (acc : Nat) {rest : List Char} (h : noDigitB rest = true) :
    digitsVal acc rest = (acc, rest) := by
  cases rest with
  | nil => rfl
  | cons c cs =>
    have : isDigitC c = false := by
      revert h
      simp [noDigitB]
  
    rw [digitsVal, if_neg (by simp [this])]

theorem parseNum_natChars (n : Nat) {rest : List Char} (h : noDigitB rest = true) :
    parseNum (natChars n ++ rest) = some (n, rest) := by
  rcases Nat.eq_zero_or_pos n with hz | hp
  · subst hz
    have h0 : natChars 0 = ['0'] := by decide
    rw [h0]
    simp [parseNum]
  · obtain ⟨c, cs, hc, hd, hz⟩ := natCharsAux_head (show n < n + 1 by omega)
    rw [natChars, hc]
    simp only [List.cons_append, parseNum]
    rw [if_neg (hz hp), if_pos hd]
    have := @digitsVal_natCharsAux (n + 1) n 0 rest (show n < n + 1 by omega)
    rw [hc] at this
    simp only [List.cons_append] at this
    rw [this, digitsVal_stop _ h]
    norm_num

theorem hexV_hexDigitCh {m : Nat} (h : m < 16) : hexV (hexDigitCh m) = some m := by
  have hx : ∀ e, e < 16 → hexV (hexDigitCh e) = some e := by decide
  exact hx m h

theorem parseStrBody_esc {e : Char} (he : e ≠ 'u') (X : List Char) :
    parseStrBody ('\\' :: e :: X) =
      match unescCh e with
      | some u =>
        (match parseStrBody X with
         | some (l, r) => some (u :: l, r)
         | none => none)
      | none => none := by
  rw [parseStrBody.eq_def]
  dsimp only
  rw [if_neg (by decide : ¬('\\' = '"')), if_pos rfl]
  rw [if_neg he]

theorem parseStrBody_lit {c : Char} (h1 : c ≠ '"') (h2 : c ≠ '\\') (h3 : ¬ c.toNat < 32)
    (X : List Char) :
    parseStrBody (c :: X) =
      match parseStrBody X with
      | some (l, r) => some (c :: l, r)
      | none => none := by
  rw [parseStrBody.eq_def]
  dsimp only
  rw [if_neg h1, if_neg h2, if_neg h3]

theorem parseStrBody_u (h1 h2 h3 h4 : Char) (X : List Char) :
    parseStrBody ('\\' :: 'u' :: h1 :: h2 :: h3 :: h4 :: X) =
      match hexV h1, hexV h2, hexV h3, hexV h4 with
      | some a, some b, some c2, some d2 =>
        if ((a * 16 + b) * 16 + c2) * 16 + d2 < 55296 ∨
            57344 ≤ ((a * 16 + b) * 16 + c2) * 16 + d2 then
          match parseStrBody X with
          | some (l, r) => some (Char.ofNat (((a * 16 + b) * 16 + c2) * 16 + d2) :: l, r)
          | none => none
        else none
      | _, _, _, _ => none := by
  rw [parseStrBody.eq_def]
  dsimp only
  rw [if_neg (by decide : ¬('\\' = '"')), if_pos rfl, if_pos rfl]

theorem parseStrBody_escList : ∀ (l rest : List Char),
    parseStrBody (escList l ++ '"' :: rest) = some (l, rest) := by
  intro l
  induction l with
  | nil =>
    intro rest
    rw [escList, List.nil_append, parseStrBody.eq_def]
    dsimp only
    rw [if_pos rfl]
  | cons c cs ih =>
    intro rest
    rw [escList, List.append_assoc]
    have hsimple : ∀ e : Char, e ≠ 'u' → unescCh e = some c → escChar c = ['\\', e] →
        parseStrBody (escChar c ++ (escList cs ++ '"' :: rest)) = some (c :: cs, rest) := by
      intro e heu hun hesc
      rw [hesc]
      simp only [List.cons_append, List.nil_append]
      rw [parseStrBody_esc heu, hun, ih]
    by_cases h1 : c = '"'
    · subst h1
      exact hsimple '"' (by decide) (by decide) (by decide)
    by_cases h2 : c = '\\'
    · subst h2
      exact hsimple '\\' (by decide) (by decide) (by decide)
    by_cases h3 : c = '\x08'
    · subst h3
      exact hsimple 'b' (by decide) (by decide) (by decide)
    by_cases h4 : c = '\t'
    · subst h4
      exact hsimple 't' (by decide) (by decide) (by decide)
    by_cases h5 : c = '\n'
    · subst h5
      exact hsimple 'n' (by decide) (by decide) (by decide)
    by_cases h6 : c = '\x0c'
    · subst h6
      exact hsimple 'f' (by decide) (by decide) (by decide)
    by_cases h7 : c = '\x0d'
    · subst h7
      exact hsimple 'r' (by decide) (by decide) (by decide)
    by_cases h8 : c.toNat < 32
    · rw [escChar, if_neg h1, if_neg h2, if_neg h3, if_neg h4, if_neg h5, if_neg h6, if_neg h7,
        if_pos h8]
      simp only [List.cons_append, List.nil_append]
      rw [parseStrBody_u]
      have hdiv : c.toNat / 16 < 16 := by omega
      have hmod : c.toNat % 16 < 16 := by omega
      rw [show hexV '0' = some 0 from by decide, hexV_hexDigitCh hdiv, hexV_hexDigitCh hmod]
      dsimp only
      rw [if_pos (Or.inl (by omega : ((0 * 16 + 0) * 16 + c.toNat / 16) * 16 + c.toNat % 16 < 55296))]
      rw [ih]
      have hcode : ((0 * 16 + 0) * 16 + c.toNat / 16) * 16 + c.toNat % 16 = c.toNat := by omega
      rw [hcode, Char.ofNat_toNat]
    · rw [escChar, if_neg h1, if_neg h2, if_neg h3, if_neg h4, if_neg h5, if_neg h6, if_neg h7,
        if_neg h8]
      simp only [List.singleton_append]
      rw [parseStrBody_lit h1 h2 h8, ih]

theorem parseV_step {fuel : Nat} {cs : List Char} {c : Char} {rest : List Char}
    (hskip : skipWs cs = c :: rest) :
    parseV (fuel + 1) cs =
      (if c = 'n' then
        match rest with
        | 'u' :: 'l' :: 'l' :: r => some (.vnull, r)
        | _ => none
      else if c = 't' then
        match rest with
        | 'r' :: 'u' :: 'e' :: r => some (.vbool true, r)
        | _ => none
      else if c = 'f' then
        match rest with
        | 'a' :: 'l' :: 's' :: 'e' :: r => some (.vbool false, r)
        | _ => none
      else if c = '"' then
        match parseStrBody rest with
        | some (l, r) => some (.vstr (String.mk l), r)
        | none => none
      else if c = '-' then
        match parseNum rest with
        | some (n, r) => some (.vnum (-(n : Int)), r)
        | none => none
      else if c = '[' then
        match skipWs rest with
        | [] => none
        | d :: r2 =>
          if d = ']' then some (.varr .nil, r2)
          else
            match parseItems fuel (d :: r2) with
            | some (xs, r3) => some (.varr xs, r3)
            | none => none
      else if c = '\x7b' then
        match skipWs rest with
        | [] => none
        | d :: r2 =>
          if d = '\x7d' then some (.vobj .nil, r2)
          else
            match parseMembers fuel .nil (d :: r2) with
            | some (fs, r3) => some (.vobj fs, r3)
            | none => none
      else if isDigitC c then
        match parseNum (c :: rest) with
        | some (n, r) => some (.vnum (n : Int), r)
        | none => none
      else none) := by
  show (parseStep (parsers fuel)).val cs = _
  simp only [parseStep]
  rw [hskip]
  rfl

theorem parseItems_step {fuel : Nat} (cs : List Char) :
    parseItems (fuel + 1) cs =
      (match parseV fuel cs with
       | none => none
       | some (v, r1) =>
         match skipWs r1 with
         | [] => none
         | d :: r2 =>
           if d = ',' then
             match parseItems fuel r2 with
             | some (vs, r3) => some (.cons v vs, r3)
             | none => none
           else if d = ']' then some (.cons v .nil, r2)
           else none) := by
  show (parseStep (parsers fuel)).items cs = _
  simp only [parseStep]
  rfl

theorem parseMembers_step {fuel : Nat} (acc : JMembers) (cs : List Char) :
    parseMembers (fuel + 1) acc cs =
      (match skipWs cs with
       | [] => none
       | c :: r1 =>
         if c = '"' then
           match parseStrBody r1 with
           | none => none
           | some (k, r2) =>
             match skipWs r2 with
             | [] => none
             | d :: r3 =>
               if d = ':' then
                 match parseV fuel r3 with
                 | none => none
                 | some (v, r4) =>
                   match skipWs r4 with
                   | [] => none
                   | e :: r5 =>
                     if e = ',' then parseMembers fuel (objAdd acc (String.mk k) v) r5
                     else if e = '\x7d' then some (objAdd acc (String.mk k) v, r5)
                     else none
               else none
         else none) := by
  show (parseStep (parsers fuel)).members acc cs = _
  simp only [parseStep]
  rfl

theorem weight_pos : ∀ j : JVal, 1 ≤ weight j := by
  intro j
  cases j <;> simp [weight]

theorem isPure_ne_undefined {v : JVal} (h : isPure v = true) : v ≠ .vundefined := by
  intro he
  subst he
  simp [isPure] at h

theorem hasVisible_of_pure {t : JMembers} (hp : pureMembers t = true) (hne : t ≠ .nil) :
    hasVisible t = true := by
  cases t with
  | nil => exact absurd rfl hne
  | cons k v t2 =>
    have hv : isPure v = true := by
      rw [pureMembers] at hp
      exact (Bool.and_eq_true_iff.mp (Bool.and_eq_true_iff.mp hp).1).1
    have := isPure_ne_undefined hv
    cases v <;> simp [hasVisible] at this ⊢


theorem keyFree_append (a b : JMembers) (k : String) :
    keyFree (a.append b) k = (keyFree a k && keyFree b k) := by
  induction a using membersInd with
  | r0 => simp [JMembers.append, keyFree]
  | r1 k1 v1 t ih => simp [JMembers.append, keyFree, ih, Bool.and_assoc]

theorem objAdd_fresh {acc : JMembers} {k : String} (v : JVal) (h : keyFree acc k = true) :
    objAdd acc k v = acc.append (.cons k v .nil) := by
  induction acc using membersInd with
  | r0 => rfl
  | r1 k1 v1 t ih =>
    rw [keyFree] at h
    obtain ⟨h1, h2⟩ := Bool.and_eq_true_iff.mp h
    rw [objAdd, if_neg (by simpa using h1), JMembers.append, ih h2]

theorem append_cons_assoc (acc : JMembers) (k : String) (v : JVal) (fs : JMembers) :
    (acc.append (.cons k v .nil)).append fs = acc.append (.cons k v fs) := by
  induction acc using membersInd with
  | r0 => rfl
  | r1 k1 v1 t ih => simp [JMembers.append, ih]

theorem disjKeys_after_add {fs acc : JMembers} {k : String} (v : JVal)
    (hd : disjKeys fs acc = true) (hf : keyFree fs k = true) :
    disjKeys fs (acc.append (.cons k v .nil)) = true := by
  induction fs using membersInd with
  | r0 => rfl
  | r1 k2 v2 t ih =>
    rw [disjKeys] at hd
    obtain ⟨hd1, hd2⟩ := Bool.and_eq_true_iff.mp hd
    rw [keyFree] at hf
    obtain ⟨hf1, hf2⟩ := Bool.and_eq_true_iff.mp hf
    rw [disjKeys, keyFree_append, Bool.and_eq_true_iff]
    refine ⟨Bool.and_eq_true_iff.mpr ⟨hd1, ?_⟩, ih hd2 hf2⟩
    rw [keyFree, keyFree]
    simpa using fun he => by simp [he] at hf1

theorem printV_head {j : JVal} (hp : isPure j = true) :
    ∃ c cs, printV j = c :: cs ∧ isWsC c = false ∧ c ≠ ']' ∧ c ≠ '\x7d' := by
  cases j with
  | vundefined => simp [isPure] at hp
  | vnull => exact ⟨'n', _, rfl, by decide, by decide, by decide⟩
  | vbool b =>
    cases b
    · exact ⟨'f', _, rfl, by decide, by decide, by decide⟩
    · exact ⟨'t', _, rfl, by decide, by decide, by decide⟩
  | vnum n =>
    cases n with
    | ofNat m =>
      obtain ⟨c, cs, hc, hd, _⟩ := natCharsAux_head (show m < m + 1 by omega)
      have hb := isDigitC_iff.mp hd
      refine ⟨c, cs, ?_, ws_false_of_digit hd, ?_, ?_⟩
      · simpa [printV, intChars, natChars] using hc
      · intro he; subst he; revert hb; decide
      · intro he; subst he; revert hb; decide
    | negSucc m =>
      exact ⟨'-', _, rfl, by decide, by decide, by decide⟩
  | vstr s => exact ⟨'"', _, rfl, by decide, by decide, by decide⟩
  | varr xs => exact ⟨'[', _, rfl, by decide, by decide, by decide⟩
  | vobj fs => exact ⟨'\x7b', _, rfl, by decide, by decide, by decide⟩

theorem disjKeys_nil : ∀ fs : JMembers, disjKeys fs .nil = true := by
  intro fs
  induction fs using membersInd with
  | r0 => rfl
  | r1 k v t ih => simp [disjKeys, keyFree, ih]

theorem parseV_null_case {fuel : Nat} {X : List Char} :
    parseV (fuel + 1) ('n' :: 'u' :: 'l' :: 'l' :: X) = some (.vnull, X) := by
  rw [parseV_step (skipWs_cons _ (by decide))]
  rfl

theorem parseV_true_case {fuel : Nat} {X : List Char} :
    parseV (fuel + 1) ('t' :: 'r' :: 'u' :: 'e' :: X) = some (.vbool true, X) := by
  rw [parseV_step (skipWs_cons _ (by decide))]
  rw [if_neg (by decide), if_pos rfl]
  rfl

theorem parseV_false_case {fuel : Nat} {X : List Char} :
    parseV (fuel + 1) ('f' :: 'a' :: 'l' :: 's' :: 'e' :: X) = some (.vbool false, X) := by
  rw [parseV_step (skipWs_cons _ (by decide))]
  rw [if_neg (by decide), if_neg (by decide), if_pos rfl]
  rfl

theorem parseV_str_case {fuel : Nat} {l X : List Char} :
    parseV (fuel + 1) ('"' :: (escList l ++ '"' :: X)) = some (.vstr (String.mk l), X) := by
  rw [parseV_step (skipWs_cons _ (by decide))]
  rw [if_neg (by decide), if_neg (by decide), if_neg (by decide), if_pos rfl]
  rw [parseStrBody_escList]

theorem parseV_num_nonneg {fuel : Nat} {m : Nat} {X : List Char} (h : noDigitB X = true) :
    parseV (fuel + 1) (natChars m ++ X) = some (.vnum (Int.ofNat m), X) := by
  obtain ⟨c, cs, hc, hd, _⟩ := natCharsAux_head (show m < m + 1 by omega)
  have hform : natChars m ++ X = c :: (cs ++ X) := by
    rw [natChars, hc, List.cons_append]
  rw [hform, parseV_step (skipWs_cons _ (ws_false_of_digit hd))]
  obtain ⟨hn1, hn2, hn3, hn4, hn5, hn6, hn7⟩ := digit_not_lit hd
  rw [if_neg hn1, if_neg hn2, if_neg hn3, if_neg hn4, if_neg hn5, if_neg hn6, if_neg hn7,
    if_pos hd]
  rw [show (c :: (cs ++ X)) = natChars m ++ X from hform.symm, parseNum_natChars m h]
  rfl

theorem parseV_num_neg {fuel : Nat} {m : Nat} {X : List Char} (h : noDigitB X = true) :
    parseV (fuel + 1) ('-' :: (natChars (m + 1) ++ X)) = some (.vnum (Int.negSucc m), X) := by
  rw [parseV_step (skipWs_cons _ (by decide))]
  rw [if_neg (by decide), if_neg (by decide), if_neg (by decide), if_neg (by decide), if_pos rfl]
  rw [parseNum_natChars (m + 1) h]
  have hns : (-((m + 1 : Nat) : Int)) = Int.negSucc m := by
    rw [Int.negSucc_eq]
    push_cast
    ring
  dsimp only
  rw [hns]

theorem parse_inv : ∀ fuel : Nat,
    (∀ (j : JVal) (rest : List Char), isPure j = true → weight j ≤ fuel → noDigitB rest = true →
      parseV fuel (printV j ++ rest) = some (j, rest)) ∧
    (∀ (xs : JItems) (rest : List Char), pureItems xs = true → xs ≠ .nil → itemsW xs ≤ fuel →
      parseItems fuel (printItems xs ++ ']' :: rest) = some (xs, rest)) ∧
    (∀ (fs acc : JMembers) (rest : List Char), pureMembers fs = true → fs ≠ .nil →
      membersW fs ≤ fuel → disjKeys fs acc = true →
      parseMembers fuel acc (printMembers fs ++ '\x7d' :: rest) = some (acc.append fs, rest)) := by
  intro fuel
  induction fuel with
  | zero =>
    refine ⟨?_, ?_, ?_⟩
    · intro j rest _ hw _
      exact absurd hw (by have := weight_pos j; omega)
    · intro xs rest _ hne hw
      cases xs with
      | nil => exact absurd rfl hne
      | cons x t =>
        have h1 := weight_pos x
        have h2 : itemsW (JItems.cons x t) = 1 + weight x + itemsW t := rfl
        omega
    · intro fs acc rest _ hne hw _
      cases fs with
      | nil => exact absurd rfl hne
      | cons k v t =>
        have h1 := weight_pos v
        have h2 : membersW (JMembers.cons k v t) = 1 + weight v + membersW t := rfl
        omega
  | succ f IH =>
    obtain ⟨ihv, ihi, ihm⟩ := IH
    refine ⟨?_, ?_, ?_⟩
    · intro j rest hp hw hnd
      cases j with
      | vundefined => simp [isPure] at hp
      | vnull =>
        rw [show printV .vnull ++ rest = 'n' :: 'u' :: 'l' :: 'l' :: rest from rfl,
          parseV_null_case]
      | vbool b =>
        cases b
        · rw [show printV (.vbool false) ++ rest = 'f' :: 'a' :: 'l' :: 's' :: 'e' :: rest from rfl,
            parseV_false_case]
        · rw [show printV (.vbool true) ++ rest = 't' :: 'r' :: 'u' :: 'e' :: rest from rfl,
            parseV_true_case]
      | vnum n =>
        cases n with
        | ofNat m =>
          rw [show printV (.vnum (Int.ofNat m)) ++ rest = natChars m ++ rest from rfl,
            parseV_num_nonneg hnd]
        | negSucc m =>
          rw [show printV (.vnum (Int.negSucc m)) ++ rest = '-' :: (natChars (m + 1) ++ rest) from
            by simp [printV, intChars], parseV_num_neg hnd]
      | vstr s =>
        rw [show printV (.vstr s) ++ rest = '"' :: (escList s.data ++ '"' :: rest) from
          by simp [printV], parseV_str_case]
      | varr xs =>
        cases xs with
        | nil =>
          rw [show printV (.varr .nil) ++ rest = '[' :: ']' :: rest from rfl,
            parseV_step (skipWs_cons _ (by decide))]
          rw [if_neg (by decide), if_neg (by decide), if_neg (by decide), if_neg (by decide),
            if_neg (by decide), if_pos rfl]
          rw [skipWs_cons _ (by decide)]
          rfl
        | cons x t =>
          have hpi : pureItems (JItems.cons x t) = true := hp
          have hx : isPure x = true := by
            have hsplit : pureItems (JItems.cons x t) = (isPure x && pureItems t) := rfl
            rw [hsplit] at hpi
            exact (Bool.and_eq_true_iff.mp hpi).1
          obtain ⟨c2, cs2, hc2, hws2, hnb2, _⟩ := printV_head hx
          have hY : ∃ Y, printItems (JItems.cons x t) ++ ']' :: rest = c2 :: Y := by
            cases t with
            | nil =>
              refine ⟨cs2 ++ ']' :: rest, ?_⟩
              rw [show printItems (JItems.cons x .nil) = printV x from rfl, hc2]
              simp
            | cons y ys =>
              refine ⟨cs2 ++ ',' :: printItems (JItems.cons y ys) ++ ']' :: rest, ?_⟩
              rw [show printItems (JItems.cons x (JItems.cons y ys)) =
                printV x ++ ',' :: printItems (JItems.cons y ys) from rfl, hc2]
              simp
          obtain ⟨Y, hYe⟩ := hY
          have hwx : itemsW (JItems.cons x t) ≤ f := by
            have hwe : weight (.varr (JItems.cons x t)) = 1 + itemsW (JItems.cons x t) := rfl
            omega
          rw [show printV (.varr (JItems.cons x t)) ++ rest =
            '[' :: (printItems (JItems.cons x t) ++ ']' :: rest) from by simp [printV],
            parseV_step (skipWs_cons _ (by decide))]
          rw [if_neg (by decide), if_neg (by decide), if_neg (by decide), if_neg (by decide),
            if_neg (by decide), if_pos rfl]
          rw [hYe, skipWs_cons _ hws2]
          dsimp only
          rw [if_neg hnb2, ← hYe]
          rw [ihi (JItems.cons x t) rest hpi (fun h => JItems.noConfusion h) hwx]
      | vobj fs =>
        cases fs with
        | nil =>
          rw [show printV (.vobj .nil) ++ rest = '\x7b' :: '\x7d' :: rest from rfl,
            parseV_step (skipWs_cons _ (by decide))]
          rw [if_neg (by decide), if_neg (by decide), if_neg (by decide), if_neg (by decide),
            if_neg (by decide), if_neg (by decide), if_pos rfl]
          rw [skipWs_cons _ (by decide)]
          rfl
        | cons k v t =>
          have hpm : pureMembers (JMembers.cons k v t) = true := hp
          have hv : isPure v = true := by
            have hsplit : pureMembers (JMembers.cons k v t) =
                (isPure v && keyFree t k && pureMembers t) := rfl
            rw [hsplit] at hpm
            exact (Bool.and_eq_true_iff.mp (Bool.and_eq_true_iff.mp hpm).1).1
          have hvne := isPure_ne_undefined hv
          have hY : ∃ Y, printMembers (JMembers.cons k v t) ++ '\x7d' :: rest = '"' :: Y := by
            refine ⟨(escList k.data ++ ['"', ':'] ++ printV v ++
              (if hasVisible t then ',' :: printMembers t else [])) ++ '\x7d' :: rest, ?_⟩
            rw [printMembers, if_neg hvne]
            simp
          obtain ⟨Y, hYe⟩ := hY
          have hwm : membersW (JMembers.cons k v t) ≤ f := by
            have hwe : weight (.vobj (JMembers.cons k v t)) =
                1 + membersW (JMembers.cons k v t) := rfl
            omega
          rw [show printV (.vobj (JMembers.cons k v t)) ++ rest =
            '\x7b' :: (printMembers (JMembers.cons k v t) ++ '\x7d' :: rest) from
            by simp [printV], parseV_step (skipWs_cons _ (by decide))]
          rw [if_neg (by decide), if_neg (by decide), if_neg (by decide), if_neg (by decide),
            if_neg (by decide), if_neg (by decide), if_pos rfl]
          rw [hYe, skipWs_cons _ (by decide)]
          dsimp only
          rw [if_neg (by decide), ← hYe]
          rw [ihm (JMembers.cons k v t) .nil rest hpm (fun h => JMembers.noConfusion h) hwm
            (disjKeys_nil _)]
          rfl
    · intro xs rest hp hne hw
      cases xs with
      | nil => exact absurd rfl hne
      | cons x t =>
        have hsplit : pureItems (JItems.cons x t) = (isPure x && pureItems t) := rfl
        rw [hsplit] at hp
        obtain ⟨hx, ht⟩ := Bool.and_eq_true_iff.mp hp
        have harith : itemsW (JItems.cons x t) = 1 + weight x + itemsW t := rfl
        have hwx : weight x ≤ f := by omega
        have hwt : itemsW t ≤ f := by omega
        rw [parseItems_step]
        cases t with
        | nil =>
          rw [show printItems (JItems.cons x .nil) ++ ']' :: rest = printV x ++ ']' :: rest
            from rfl]
          rw [ihv x (']' :: rest) hx hwx rfl]
          dsimp only
          rw [skipWs_cons _ (by decide)]
          dsimp only
          rw [if_neg (by decide), if_pos rfl]
        | cons y ys =>
          rw [show printItems (JItems.cons x (JItems.cons y ys)) ++ ']' :: rest =
            printV x ++ ',' :: (printItems (JItems.cons y ys) ++ ']' :: rest) from by
              rw [show printItems (JItems.cons x (JItems.cons y ys)) =
                printV x ++ ',' :: printItems (JItems.cons y ys) from rfl]
              simp]
          rw [ihv x (',' :: (printItems (JItems.cons y ys) ++ ']' :: rest)) hx hwx rfl]
          dsimp only
          rw [skipWs_cons _ (by decide)]
          dsimp only
          rw [if_pos rfl]
          rw [ihi (JItems.cons y ys) rest ht (fun h => JItems.noConfusion h) hwt]
    · intro fs acc rest hp hne hw hdisj
      cases fs with
      | nil => exact absurd rfl hne
      | cons k v t =>
        have hsplit : pureMembers (JMembers.cons k v t) =
            (isPure v && keyFree t k && pureMembers t) := rfl
        rw [hsplit] at hp
        obtain ⟨hvk, hpt⟩ := Bool.and_eq_true_iff.mp hp
        obtain ⟨hv, hkf⟩ := Bool.and_eq_true_iff.mp hvk
        have hdsplit : disjKeys (JMembers.cons k v t) acc = (keyFree acc k && disjKeys t acc) :=
          rfl
        rw [hdsplit] at hdisj
        obtain ⟨hda, hdt⟩ := Bool.and_eq_true_iff.mp hdisj
        have harith : membersW (JMembers.cons k v t) = 1 + weight v + membersW t := rfl
        have hwv : weight v ≤ f := by omega
        have hwt : membersW t ≤ f := by omega
        have hvne := isPure_ne_undefined hv
        have hkmk : String.mk k.data = k := rfl
        rw [parseMembers_step]
        cases t with
        | nil =>
          rw [show printMembers (JMembers.cons k v .nil) ++ '\x7d' :: rest =
            '"' :: (escList k.data ++ '"' :: (':' :: (printV v ++ '\x7d' :: rest))) from by
              rw [printMembers, if_neg hvne]
              simp [hasVisible]]
          rw [skipWs_cons _ (by decide)]
          dsimp only
          rw [if_pos rfl]
          rw [parseStrBody_escList]
          dsimp only
          rw [skipWs_cons _ (by decide)]
          dsimp only
          rw [if_pos rfl]
          rw [ihv v ('\x7d' :: rest) hv hwv rfl]
          dsimp only
          rw [skipWs_cons _ (by decide)]
          dsimp only
          rw [if_neg (by decide), if_pos rfl]
          rw [hkmk, objAdd_fresh v hda]
        | cons k2 v2 t2 =>
          have hvis : hasVisible (JMembers.cons k2 v2 t2) = true :=
            hasVisible_of_pure hpt (fun h => JMembers.noConfusion h)
          rw [show printMembers (JMembers.cons k v (JMembers.cons k2 v2 t2)) ++ '\x7d' :: rest =
            '"' :: (escList k.data ++ '"' :: (':' :: (printV v ++ ',' ::
              (printMembers (JMembers.cons k2 v2 t2) ++ '\x7d' :: rest)))) from by
              rw [printMembers, if_neg hvne, if_pos hvis]
              simp]
          rw [skipWs_cons _ (by decide)]
          dsimp only
          rw [if_pos rfl]
          rw [parseStrBody_escList]
          dsimp only
          rw [skipWs_cons _ (by decide)]
          dsimp only
          rw [if_pos rfl]
          rw [ihv v (',' :: (printMembers (JMembers.cons k2 v2 t2) ++ '\x7d' :: rest)) hv hwv
            rfl]
          dsimp only
          rw [skipWs_cons _ (by decide)]
          dsimp only
          rw [if_pos rfl]
          rw [hkmk, objAdd_fresh v hda]
          rw [ihm (JMembers.cons k2 v2 t2) (acc.append (.cons k v .nil)) rest hpt
            (fun h => JMembers.noConfusion h) hwt (disjKeys_after_add v hdt hkf)]
          rw [append_cons_assoc]

theorem weight_le_printV : ∀ j : JVal, isPure j = true → weight j ≤ 2 * (printV j).length := by
  refine jvalInd (fun j => isPure j = true → weight j ≤ 2 * (printV j).length)
    (fun xs => pureItems xs = true → itemsW xs ≤ 2 * (printItems xs).length + 1)
    (fun fs => pureMembers fs = true → membersW fs ≤ 2 * (printMembers fs).length + 1)
    ?_ ?_ ?_ ?_ ?_ ?_ ?_ ?_ ?_ ?_ ?_
  · intro h
    simp [isPure] at h
  · intro _
    have h1 : weight .vnull = 1 := rfl
    have h2 : (printV .vnull).length = 4 := rfl
    omega
  · intro b _
    cases b
    · have h1 : weight (.vbool false) = 1 := rfl
      have h2 : (printV (.vbool false)).length = 5 := rfl
      omega
    · have h1 : weight (.vbool true) = 1 := rfl
      have h2 : (printV (.vbool true)).length = 4 := rfl
      omega
  · intro n _
    have h1 : weight (.vnum n) = 1 := rfl
    have h2 : 1 ≤ (printV (.vnum n)).length := by
      cases n with
      | ofNat m =>
        obtain ⟨c, cs, hc, _, _⟩ := natCharsAux_head (show m < m + 1 by omega)
        have hpr : printV (.vnum (Int.ofNat m)) = c :: cs := by
          show natChars m = c :: cs
          rw [natChars, hc]
        rw [hpr]
        simp
      | negSucc m => simp [printV, intChars]
    omega
  · intro s _
    have h1 : weight (.vstr s) = 1 := rfl
    have h2 : (printV (.vstr s)).length = (escList s.data).length + 2 := by
      simp [printV]
    omega
  · intro xs hq hp
    have hps : isPure (.varr xs) = pureItems xs := rfl
    rw [hps] at hp
    have h1 : weight (.varr xs) = 1 + itemsW xs := rfl
    have h2 : (printV (.varr xs)).length = (printItems xs).length + 2 := by
      simp [printV]
    have := hq hp
    omega
  · intro fs hr hp
    have hps : isPure (.vobj fs) = pureMembers fs := rfl
    rw [hps] at hp
    have h1 : weight (.vobj fs) = 1 + membersW fs := rfl
    have h2 : (printV (.vobj fs)).length = (printMembers fs).length + 2 := by
      simp [printV]
    have := hr hp
    omega
  · intro _
    have h1 : itemsW .nil = 0 := rfl
    omega
  · intro x xs hP hQ hp
    have hsplit : pureItems (JItems.cons x xs) = (isPure x && pureItems xs) := rfl
    rw [hsplit] at hp
    obtain ⟨hx, hxs⟩ := Bool.and_eq_true_iff.mp hp
    have hwx := hP hx
    cases xs with
    | nil =>
      have h1 : itemsW (JItems.cons x .nil) = 1 + weight x + 0 := rfl
      have h2 : printItems (JItems.cons x .nil) = printV x := rfl
      rw [h2]
      omega
    | cons y ys =>
      have hwxs := hQ hxs
      have h1 : itemsW (JItems.cons x (JItems.cons y ys)) =
          1 + weight x + itemsW (JItems.cons y ys) := rfl
      have h2 : (printItems (JItems.cons x (JItems.cons y ys))).length =
          (printV x).length + 1 + (printItems (JItems.cons y ys)).length := by
        rw [show printItems (JItems.cons x (JItems.cons y ys)) =
          printV x ++ ',' :: printItems (JItems.cons y ys) from rfl]
        simp
        omega
      omega
  · intro _
    have h1 : membersW .nil = 0 := rfl
    omega
  · intro k v fs hPv hRfs hp
    have hsplit : pureMembers (JMembers.cons k v fs) =
        (isPure v && keyFree fs k && pureMembers fs) := rfl
    rw [hsplit] at hp
    obtain ⟨hvk, hpfs⟩ := Bool.and_eq_true_iff.mp hp
    have hv : isPure v = true := (Bool.and_eq_true_iff.mp hvk).1
    have hvne := isPure_ne_undefined hv
    have hwv := hPv hv
    have hpm : printMembers (JMembers.cons k v fs) =
        ('"' :: escList k.data ++ ['"', ':'] ++ printV v) ++
          (if hasVisible fs then ',' :: printMembers fs else []) := by
      rw [printMembers, if_neg hvne]
    cases fs with
    | nil =>
      have hvis : hasVisible .nil = false := rfl
      rw [hpm, hvis]
      have h1 : membersW (JMembers.cons k v .nil) = 1 + weight v + 0 := rfl
      simp
      omega
    | cons k2 v2 t2 =>
      have hw2 := hRfs hpfs
      have hvis : hasVisible (JMembers.cons k2 v2 t2) = true :=
        hasVisible_of_pure hpfs (fun h => JMembers.noConfusion h)
      rw [hpm, hvis]
      have h1 : membersW (JMembers.cons k v (JMembers.cons k2 v2 t2)) =
          1 + weight v + membersW (JMembers.cons k2 v2 t2) := rfl
      simp
      omega

theorem parse_print {j : JVal} (hp : isPure j = true) :
    JSON.parse (String.mk (printV j)) = some j := by
  have hlen : (String.mk (printV j)).length = (printV j).length := rfl
  have hfuel : weight j ≤ 2 * (String.mk (printV j)).length + 2 := by
    have := weight_le_printV j hp
    omega
  have hmain := (parse_inv (2 * (String.mk (printV j)).length + 2)).1 j [] hp hfuel rfl
  rw [List.append_nil] at hmain
  show (match parseV (2 * (String.mk (printV j)).length + 2) (String.mk (printV j)).data with
        | some (jv, rest) => if skipWs rest = [] then some jv else none
        | none => none) = some j
  rw [show (String.mk (printV j)).data = printV j from rfl, hmain]
  rfl

theorem stringify_eq {j : JVal} (h : j ≠ .vundefined) :
    JSON.stringify j = some (String.mk (printV j)) := by
  cases j with
  | vundefined => exact absurd rfl h
  | vnull => rfl
  | vbool b => rfl
  | vnum n => rfl
  | vstr s => rfl
  | varr xs => rfl
  | vobj fs => rfl

theorem safeJSON_util_pure {j : JVal} (hp : isPure j = true) : SrcUtil.safeJSON j = j := by
  have hne := isPure_ne_undefined hp
  rw [SrcUtil.safeJSON, stringify_eq hne]
  dsimp only
  rw [parse_print hp]

theorem safeJSON_unnamed_atom {j : JVal} (hatom : toStrChars j = printV j)
    (hp : isPure j = true) : SrcUnnamed.safeJSON j = j := by
  rw [SrcUnnamed.safeJSON, show jsToString j = String.mk (toStrChars j) from rfl, hatom,
    parse_print hp]

theorem safeJSON_unnamed_str_some {s : String} {j : JVal} (h : JSON.parse s = some j) :
    SrcUnnamed.safeJSON (.vstr s) = j := by
  rw [SrcUnnamed.safeJSON, show jsToString (.vstr s) = s from rfl, h]

theorem safeJSON_unnamed_str_none {s : String} (h : JSON.parse s = none) :
    SrcUnnamed.safeJSON (.vstr s) = .vstr s := by
  rw [SrcUnnamed.safeJSON, show jsToString (.vstr s) = s from rfl, h]

theorem validateForm_util_ok (fd : FormData) (schema : JVal → ParseResult) (fr : Option Bool) :
    SrcUtil.validateForm ⟨.ok fd⟩ schema fr =
      (if fr.getD false then .ok (.fullR (schema (normalizedInput fd)) fd)
       else .ok (match schema (normalizedInput fd) with
                 | .success d => VFResult.minR d
                 | .failure _ => VFResult.minR .vundefined)) := rfl

theorem validateForm_class_ok (fd : FormData) (schema : JVal → ParseResult) (fr : Option Bool) :
    SrcClass.validateForm ⟨.ok fd⟩ schema fr =
      (if fr.getD true then .ok (.fullR (schema (normalizedInput fd)) fd)
       else .ok (match schema (normalizedInput fd) with
                 | .success d => VFResult.minR d
                 | .failure _ => VFResult.minR .vundefined)) := rfl

/-- C1 counterexample: the text 1 is valid JSON denoting the number 1, yet
the stringify-then-parse variant of safeJSON maps the string 1 to itself,
not to the parsed structure, so the claim fails for that variant. -/
theorem claimC1_counterexample :
    JSON.parse "1" = some (.vnum 1) ∧ SrcUtil.safeJSON (.vstr "1") = .vstr "1" ∧
      JVal.vstr "1" ≠ .vnum 1 := by
  refine ⟨by decide, by decide, by decide⟩

/-- C1 (amended): for every value that is valid JSON text, the direct-parse
variant of safeJSON returns the parsed structure of the text; the
stringify-then-parse variant instead returns the input string unchanged. -/
theorem claimC1 :
    ∀ (s : String) (j : JVal), JSON.parse s = some j →
      SrcUnnamed.safeJSON (.vstr s) = j ∧ SrcUtil.safeJSON (.vstr s) = .vstr s := by
  intro s j h
  exact ⟨safeJSON_unnamed_str_some h, safeJSON_util_pure rfl⟩

/-- C1 witness: the amended claim evaluated at the valid JSON text 1. -/
theorem claimC1_witness :
    JSON.parse "1" = some (.vnum 1) ∧
      SrcUnnamed.safeJSON (.vstr "1") = .vnum 1 ∧ SrcUtil.safeJSON (.vstr "1") = .vstr "1" := by
  have h := claimC1 "1" (.vnum 1) (by decide)
  exact ⟨by decide, h.1, h.2⟩

/-- C2 counterexample: on the input string 1 the direct-parse variant
returns the number 1 while the stringify-then-parse variant returns the
string 1, so the two safeJSON strategies are not equivalent. -/
theorem claimC2_counterexample :
    SrcUnnamed.safeJSON (.vstr "1") = .vnum 1 ∧ SrcUtil.safeJSON (.vstr "1") = .vstr "1" ∧
      SrcUnnamed.safeJSON (.vstr "1") ≠ SrcUtil.safeJSON (.vstr "1") := by
  refine ⟨by decide, by decide, by decide⟩

/-- C2 (amended): the two safeJSON variants agree on null, boolean and
integer inputs and on strings that are not valid JSON text; but on every
string that is valid JSON text the direct-parse variant returns the parsed
structure while the stringify-then-parse variant returns the string
unchanged, and the two disagree there, witnessed by the string 1. -/
theorem claimC2 :
    (SrcUnnamed.safeJSON .vnull = SrcUtil.safeJSON .vnull) ∧
    (∀ b : Bool, SrcUnnamed.safeJSON (.vbool b) = SrcUtil.safeJSON (.vbool b)) ∧
    (∀ n : Int, SrcUnnamed.safeJSON (.vnum n) = SrcUtil.safeJSON (.vnum n)) ∧
    (∀ s : String, JSON.parse s = none →
      SrcUnnamed.safeJSON (.vstr s) = SrcUtil.safeJSON (.vstr s)) ∧
    (∀ (s : String) (j : JVal), JSON.parse s = some j →
      SrcUnnamed.safeJSON (.vstr s) = j ∧ SrcUtil.safeJSON (.vstr s) = .vstr s) ∧
    SrcUnnamed.safeJSON (.vstr "1") ≠ SrcUtil.safeJSON (.vstr "1") := by
  refine ⟨?_, ?_, ?_, ?_, ?_, by decide⟩
  · rw [safeJSON_unnamed_atom (j := .vnull) rfl rfl, safeJSON_util_pure (j := .vnull) rfl]
  · intro b
    cases b
    · rw [safeJSON_unnamed_atom (j := .vbool false) rfl rfl,
        safeJSON_util_pure (j := .vbool false) rfl]
    · rw [safeJSON_unnamed_atom (j := .vbool true) rfl rfl,
        safeJSON_util_pure (j := .vbool true) rfl]
  · intro n
    rw [safeJSON_unnamed_atom (j := .vnum n) rfl rfl, safeJSON_util_pure (j := .vnum n) rfl]
  · intro s h
    rw [safeJSON_unnamed_str_none h, safeJSON_util_pure (j := .vstr s) rfl]
  · intro s j h
    exact ⟨safeJSON_unnamed_str_some h, safeJSON_util_pure (j := .vstr s) rfl⟩

/-- C2 witness: the amended claim evaluated at concrete inputs of each
kind, including a valid JSON text where the variants disagree. -/
theorem claimC2_witness :
    JSON.parse "not json" = none ∧
      SrcUnnamed.safeJSON (.vstr "not json") = SrcUtil.safeJSON (.vstr "not json") ∧
      SrcUnnamed.safeJSON (.vbool true) = SrcUtil.safeJSON (.vbool true) ∧
      SrcUnnamed.safeJSON (.vnum 5) = SrcUtil.safeJSON (.vnum 5) ∧
      JSON.parse "1" = some (.vnum 1) ∧
      SrcUnnamed.safeJSON (.vstr "1") = .vnum 1 ∧
      SrcUtil.safeJSON (.vstr "1") = .vstr "1" := by
  have h := claimC2
  exact ⟨by decide, h.2.2.2.1 "not json" (by decide), h.2.1 true, h.2.2.1 5, by decide,
    (h.2.2.2.2.1 "1" (.vnum 1) (by decide)).1, (h.2.2.2.2.1 "1" (.vnum 1) (by decide)).2⟩

/-- C3 counterexample: serializing the object with one member a mapped to
1 yields a JSON text; the stringify-then-parse variant of safeJSON applied
to that text returns the text itself, not a value structurally equal to
the original object, so the roundtrip claim fails for that variant. -/
theorem claimC3_counterexample :
    JSON.stringify (.vobj (.cons "a" (.vnum 1) .nil)) = some "\x7b\"a\":1\x7d" ∧
    SrcUtil.safeJSON (.vstr "\x7b\"a\":1\x7d") = .vstr "\x7b\"a\":1\x7d" ∧
    JVal.vstr "\x7b\"a\":1\x7d" ≠ .vobj (.cons "a" (.vnum 1) .nil) := by
  refine ⟨by decide, by decide, by decide⟩

/-- C3 (amended): for every JSON-pure structured value (no undefined
anywhere, no duplicate object keys), the direct-parse variant of safeJSON
applied to its JSON serialization returns a value structurally equal to
the original; the stringify-then-parse variant instead returns the
serialization text unchanged. -/
theorem claimC3 :
    ∀ (v : JVal) (t : String), isPure v = true → JSON.stringify v = some t →
      SrcUnnamed.safeJSON (.vstr t) = v ∧ SrcUtil.safeJSON (.vstr t) = .vstr t := by
  intro v t hp hs
  have hne := isPure_ne_undefined hp
  rw [stringify_eq hne] at hs
  have ht : t = String.mk (printV v) := (Option.some_inj.mp hs).symm
  subst ht
  exact ⟨safeJSON_unnamed_str_some (parse_print hp), safeJSON_util_pure rfl⟩

/-- C3 witness: the amended roundtrip evaluated on a one-element array. -/
theorem claimC3_witness :
    isPure (.varr (.cons (.vnum 42) .nil)) = true ∧
    JSON.stringify (.varr (.cons (.vnum 42) .nil)) = some "[42]" ∧
    SrcUnnamed.safeJSON (.vstr "[42]") = .varr (.cons (.vnum 42) .nil) ∧
    SrcUtil.safeJSON (.vstr "[42]") = .vstr "[42]" := by
  have h := claimC3 (.varr (.cons (.vnum 42) .nil)) "[42]" (by decide) (by decide)
  exact ⟨by decide, by decide, h.1, h.2⟩

/-- C4 counterexample: the object with member a mapped to undefined is not
valid JSON text, yet the stringify-then-parse variant of safeJSON does not
return it unchanged: the non-serializable member is dropped and the empty
object comes back, so identity passthrough fails for non-text structured
values. -/
theorem claimC4_counterexample :
    validJSONText (.vobj (.cons "a" .vundefined .nil)) = false ∧
    SrcUtil.safeJSON (.vobj (.cons "a" .vundefined .nil)) = .vobj .nil ∧
    JVal.vobj .nil ≠ .vobj (.cons "a" .vundefined .nil) := by
  refine ⟨by decide, by decide, by decide⟩

/-- C4 (amended): for every string that is not valid JSON text, both
safeJSON variants return it unchanged, and null and undefined inputs also
pass through unchanged under both variants; both variants are total
functions, so no call raises.  The identity passthrough does not extend to
non-text structured inputs, which either variant may transform. -/
theorem claimC4 :
    (∀ s : String, JSON.parse s = none →
      SrcUnnamed.safeJSON (.vstr s) = .vstr s ∧ SrcUtil.safeJSON (.vstr s) = .vstr s) ∧
    SrcUnnamed.safeJSON .vnull = .vnull ∧ SrcUtil.safeJSON .vnull = .vnull ∧
    SrcUnnamed.safeJSON .vundefined = .vundefined ∧
    SrcUtil.safeJSON .vundefined = .vundefined := by
  refine ⟨?_, by decide, by decide, by decide, by decide⟩
  intro s h
  exact ⟨safeJSON_unnamed_str_none h, safeJSON_util_pure rfl⟩

/-- C4 witness: the amended passthrough evaluated on a non-JSON string. -/
theorem claimC4_witness :
    JSON.parse "not json" = none ∧
      SrcUnnamed.safeJSON (.vstr "not json") = .vstr "not json" ∧
      SrcUtil.safeJSON (.vstr "not json") = .vstr "not json" := by
  have h := claimC4
  exact ⟨by decide, (h.1 "not json" (by decide)).1, (h.1 "not json" (by decide)).2⟩

/-- C5: with fullReturn set to false, both validateForm variants return
exactly the schema's validated data when the safe-parse succeeds and the
absent marker undefined when it fails; never the raw unvalidated input and
never an error object. -/
theorem claimC5 :
    ∀ (fd : FormData) (schema : JVal → ParseResult),
      (∀ d : JVal, schema (normalizedInput fd) = .success d →
        SrcUtil.validateForm ⟨.ok fd⟩ schema (some false) = .ok (.minR d) ∧
        SrcClass.validateForm ⟨.ok fd⟩ schema (some false) = .ok (.minR d)) ∧
      (∀ e : String, schema (normalizedInput fd) = .failure e →
        SrcUtil.validateForm ⟨.ok fd⟩ schema (some false) = .ok (.minR .vundefined) ∧
        SrcClass.validateForm ⟨.ok fd⟩ schema (some false) = .ok (.minR .vundefined)) := by
  intro fd schema
  constructor
  · intro d h
    rw [validateForm_util_ok, validateForm_class_ok, h]
    exact ⟨rfl, rfl⟩
  · intro e h
    rw [validateForm_util_ok, validateForm_class_ok, h]
    exact ⟨rfl, rfl⟩

/-- C5 witness: minimal mode evaluated at a concrete succeeding schema and
a concrete failing schema on an empty form container. -/
theorem claimC5_witness :
    SrcUtil.validateForm ⟨.ok ⟨[]⟩⟩ (fun _ => .success (.vnum 7)) (some false) =
      .ok (.minR (.vnum 7)) ∧
    SrcUtil.validateForm ⟨.ok ⟨[]⟩⟩ (fun _ => .failure "bad") (some false) =
      .ok (.minR .vundefined) := by
  have h1 := (claimC5 ⟨[]⟩ (fun _ => .success (.vnum 7))).1 (.vnum 7) rfl
  have h2 := (claimC5 ⟨[]⟩ (fun _ => .failure "bad")).2 "bad" rfl
  exact ⟨h1.1, h2.1⟩

/-- C6: with fullReturn set to true, both validateForm variants return the
full diagnostic object carrying every field of the safe-parse outcome
together with a formData key equal to the original form container, on
success and on failure alike. -/
theorem claimC6 :
    ∀ (fd : FormData) (schema : JVal → ParseResult),
      SrcUtil.validateForm ⟨.ok fd⟩ schema (some true) =
        .ok (.fullR (schema (normalizedInput fd)) fd) ∧
      SrcClass.validateForm ⟨.ok fd⟩ schema (some true) =
        .ok (.fullR (schema (normalizedInput fd)) fd) := by
  intro fd schema
  exact ⟨rfl, rfl⟩

/-- C7: when the form container has no field named data, validateForm does
not fail: the extracted field is null, safeJSON leaves null unchanged, the
schema receives null, and the result is shaped by the usual fullReturn
rules. -/
theorem claimC7 :
    ∀ (fd : FormData) (schema : JVal → ParseResult),
      (∀ p ∈ fd.entries, p.1 ≠ "data") →
      fdGet fd "data" = .vnull ∧ normalizedInput fd = .vnull ∧
      (∀ fr : Option Bool,
        SrcUtil.validateForm ⟨.ok fd⟩ schema fr =
          (if fr.getD false then .ok (.fullR (schema .vnull) fd)
           else .ok (match schema .vnull with
                     | .success d => VFResult.minR d
                     | .failure _ => VFResult.minR .vundefined))) := by
  intro fd schema h
  have hfind : fd.entries.find? (fun e => e.1 = "data") = none := by
    rw [List.find?_eq_none]
    intro x hx
    simpa using h x hx
  have hget : fdGet fd "data" = .vnull := by
    rw [fdGet, hfind]
  have hnorm : normalizedInput fd = .vnull := by
    rw [normalizedInput, hget]
    exact safeJSON_util_pure (j := .vnull) rfl
  refine ⟨hget, hnorm, ?_⟩
  intro fr
  rw [validateForm_util_ok, hnorm]

/-- C7 witness: a form container whose only field is named other, with a
schema that rejects null, evaluated in minimal mode. -/
theorem claimC7_witness :
    fdGet ⟨[("other", "x")]⟩ "data" = .vnull ∧
    normalizedInput ⟨[("other", "x")]⟩ = .vnull ∧
    SrcUtil.validateForm ⟨.ok ⟨[("other", "x")]⟩⟩
      (fun v => if v = .vnull then .failure "required" else .success v) (some false) =
      .ok (.minR .vundefined) := by
  have h := claimC7 ⟨[("other", "x")]⟩
    (fun v => if v = .vnull then .failure "required" else .success v) (by decide)
  refine ⟨h.1, h.2.1, ?_⟩
  rw [h.2.2 (some false)]
  rfl

/-- C8: when the asynchronous form-body read fails, both validateForm
variants propagate the failure to the caller untransformed, for any schema
and any fullReturn flag, and produce no partial result. -/
theorem claimC8 :
    ∀ (e : String) (schema : JVal → ParseResult) (fr : Option Bool),
      SrcUtil.validateForm ⟨.error e⟩ schema fr = .error e ∧
      SrcClass.validateForm ⟨.error e⟩ schema fr = .error e := by
  intro e schema fr
  exact ⟨rfl, rfl⟩

/-- C9: when the fullReturn flag is omitted, the util variant treats the
undefined flag as falsy and behaves like minimal mode, while the Class
variant defaults the flag to true and behaves like full mode, and the two
variants disagree on some request and schema. -/
theorem claimC9 :
    (∀ (req : Request) (schema : JVal → ParseResult),
      SrcUtil.validateForm req schema none = SrcUtil.validateForm req schema (some false)) ∧
    (∀ (req : Request) (schema : JVal → ParseResult),
      SrcClass.validateForm req schema none = SrcClass.validateForm req schema (some true)) ∧
    (∃ (req : Request) (schema : JVal → ParseResult),
      SrcUtil.validateForm req schema none ≠ SrcClass.validateForm req schema none) := by
  refine ⟨fun req schema => rfl, fun req schema => rfl, ?_⟩
  refine ⟨⟨.ok ⟨[]⟩⟩, fun _ => .success .vnull, fun h => ?_⟩
  exact VFResult.noConfusion (Except.ok.inj h)

/-- C10: in minimal mode the absent marker is ambiguous: a schema whose
successful validation yields undefined makes validateForm return undefined
on success, the same value it returns for a schema that fails, so a caller
cannot tell the two apart. -/
theorem claimC10 :
    (fun _ : JVal => ParseResult.success .vundefined) (normalizedInput ⟨[]⟩) =
      .success .vundefined ∧
    SrcUtil.validateForm ⟨.ok ⟨[]⟩⟩ (fun _ => .success .vundefined) (some false) =
      .ok (.minR .vundefined) ∧
    SrcUtil.validateForm ⟨.ok ⟨[]⟩⟩ (fun _ => .failure "invalid") (some false) =
      .ok (.minR .vundefined) := by
  exact ⟨rfl, rfl, rfl⟩
